import Mathlib

/-!
Verification development for the SAT → 3-CNF → CLIQUE reduction engine.

The embedded functions mirror the TypeScript source:
* `parseFormula`, `formulaToString`, `transformTo3CNF`, `validateFormula`
  from the formula-utilities module;
* `parseFormulaToGraph`, `findClique` from the clique-graph module.

Strings are modelled as `List Char`; the JavaScript string primitives used by
the source (`split` on a one-character separator, `trim`, `replace` of a
character class by the empty string, `startsWith`, `substring(1)`, `join`,
template interpolation of numbers via decimal notation) are modelled by the
corresponding list functions defined below.
-/

set_option maxRecDepth 4000

/-! ## Data model (source: `Literal`, `Clause`, `CNFFormula`) -/

/-- A literal: a variable name plus a negation flag. -/
structure Literal where
  «variable» : List Char
  negated : Bool
deriving DecidableEq, Repr

abbrev Clause := List Literal

abbrev CNFFormula := List Clause

/-! ## JavaScript string primitives -/

/-- JS `s.split(sep)` for a one-character separator `sep`. -/
def splitOnChar (sep : Char) : List Char → List (List Char)
  | [] => [[]]
  | c :: cs =>
    let r := splitOnChar sep cs
    if c = sep then [] :: r else (c :: r.headD []) :: r.tail

/-- JS `s.trim()`: strip whitespace from both ends. -/
def trimChars (s : List Char) : List Char :=
  ((s.dropWhile Char.isWhitespace).reverse.dropWhile Char.isWhitespace).reverse

/-- JS `s.replace(/\s+/g, '')`: delete every whitespace character. -/
def removeWhitespace (s : List Char) : List Char :=
  s.filter (fun c => !c.isWhitespace)

/-- JS `s.replace(/[()]/g, '')`: delete every parenthesis character. -/
def removeParens (s : List Char) : List Char :=
  s.filter (fun c => !(c == '(' || c == ')'))

/-- JS `arr.join(sep)`. -/
def joinSep (sep : List Char) : List (List Char) → List Char
  | [] => []
  | [s] => s
  | s :: s' :: rest => s ++ sep ++ joinSep sep (s' :: rest)

/-- JS `s.includes(pat)` for the two-character pattern `[a, b]`. -/
def includesPair (a b : Char) : List Char → Bool
  | [] => false
  | [_] => false
  | x :: y :: rest => (x == a && y == b) || includesPair a b (y :: rest)

/-! ## Parser (source: `parseFormula`) -/

/-- The literal built from one literal substring: a leading `¬` negates, the
remainder is the variable name (source lines 32–34). -/
def parseLiteral (litStr : List Char) : Literal :=
  let negated := litStr.headD ' ' == '¬'
  { «variable» := if negated then litStr.tail else litStr, negated := negated }

/-- Parse one clause substring: strip parentheses, split on `∨`, skip empty
literal substrings (source lines 23–36). -/
def parseClause (clauseStr : List Char) : Clause :=
  let cleaned := removeParens clauseStr
  let literalStrings := splitOnChar '∨' cleaned
  literalStrings.filterMap (fun litStr =>
    if trimChars litStr ≠ [] then some (parseLiteral litStr) else none)

/-- Source `parseFormula`: strip whitespace, split on `∧` into clause
substrings, parse each, drop clauses that yield zero literals. -/
def parseFormula (input : List Char) : CNFFormula :=
  let formula := removeWhitespace input
  let clauseStrings := splitOnChar '∧' formula
  clauseStrings.filterMap (fun clauseStr =>
    let clause := parseClause clauseStr
    if clause.length > 0 then some clause else none)

/-! ## Renderer (source: `formulaToString`) -/

/-- Render one literal: `¬` prefix iff negated, then the variable name. -/
def literalToString (lit : Literal) : List Char :=
  (if lit.negated then ['¬'] else []) ++ lit.«variable»

/-- Render one clause: parenthesized literals joined by `' ∨ '`. -/
def clauseToString (clause : Clause) : List Char :=
  '(' :: (joinSep [' ', '∨', ' '] (clause.map literalToString)) ++ [')']

/-- Source `formulaToString`: clauses joined by `' ∧ '`. -/
def formulaToString (cnf : CNFFormula) : List Char :=
  joinSep [' ', '∧', ' '] (cnf.map clauseToString)

/-! ## Well-formedness of formulas produced by this system -/

/-- The JS character class `A-Za-z0-9` (letters and digits). -/
def isAlnumChar (c : Char) : Bool := c.isAlpha || c.isDigit

/-- A variable token as the data model requires: non-empty, letters/digits. -/
def GoodVar (v : List Char) : Prop :=
  v ≠ [] ∧ ∀ c ∈ v, isAlnumChar c

/-- A formula as produced by this system: clauses non-empty, variables
non-empty letter/digit tokens. -/
def GoodCNF (cnf : CNFFormula) : Prop :=
  ∀ cl ∈ cnf, cl ≠ [] ∧ ∀ l ∈ cl, GoodVar l.«variable»

instance : DecidablePred GoodVar := fun v =>
  inferInstanceAs (Decidable (v ≠ [] ∧ ∀ c ∈ v, isAlnumChar c = true))

instance : DecidablePred GoodCNF := fun cnf =>
  inferInstanceAs (Decidable (∀ cl ∈ cnf, cl ≠ [] ∧ ∀ l ∈ cl, GoodVar l.«variable»))

/-! ## 3-CNF canonicalizer (source: `transformTo3CNF`) -/

/-- The three strategy names accepted by `transformTo3CNF`. -/
inductive Method
  | tseitin
  | padding
  | split
deriving DecidableEq, Repr

/-- Decimal rendering of a counter value, as JS template interpolation does. -/
def natChars (n : Nat) : List Char := (Nat.repr n).data

/-- A generated variable name: site prefix (`x`/`y`/`z`/`p`) plus the decimal
counter value, e.g. `` `x${helperVarCount++}` ``. -/
def helperName (p : Char) (k : Nat) : List Char := p :: natChars k

/-- The source's `while (remaining.length > 3)` loop plus the final push
(lines 85–108).  Returns the emitted clauses, the trace entries, the counter
after the loop, and — instrumentation, not part of the source's state — the
(site, counter) pair of every helper name generated. -/
def splitLongClause : Clause → Nat →
    List Clause × List (List Char) × Nat × List (Char × Nat)
  | a :: b :: c :: d :: rest, cnt =>
    let helperVar := helperName 'x' cnt
    let newClause : Clause := [a, b, ⟨helperVar, false⟩]
    let r := splitLongClause (⟨helperVar, true⟩ :: c :: d :: rest) (cnt + 1)
    (newClause :: r.1,
      ("Created: ".data ++ formulaToString [newClause] ++ " with helper ".data
        ++ helperVar) :: r.2.1,
      r.2.2.1, ('x', cnt) :: r.2.2.2)
  | rem, cnt =>
    if rem.length > 0 then
      ([rem], ["Final part: ".data ++ formulaToString [rem]], cnt, [])
    else ([], [], cnt, [])
termination_by cl _ => cl.length
decreasing_by simp

/-- First pass of the splitting strategy (source lines 71–110): clauses of
arity ≤ 3 pass through, longer clauses are chain-split. -/
def splitPhase1 : CNFFormula → Nat →
    CNFFormula × List (List Char) × Nat × List (Char × Nat)
  | [], cnt => ([], [], cnt, [])
  | clause :: rest, cnt =>
    if clause.length ≤ 3 then
      let note : List (List Char) :=
        if clause.length < 3 then
          ["Clause ".data ++ formulaToString [clause] ++ " has ".data
            ++ natChars clause.length ++ " literals - will pad later".data]
        else []
      let r := splitPhase1 rest cnt
      (clause :: r.1, note ++ r.2.1, r.2.2.1, r.2.2.2)
    else
      let splitNote := "Clause ".data ++ formulaToString [clause] ++ " has ".data
        ++ natChars clause.length ++ " literals - splitting...".data
      let s := splitLongClause clause cnt
      let r := splitPhase1 rest s.2.2.1
      (s.1 ++ r.1, splitNote :: s.2.1 ++ r.2.1, r.2.2.1, s.2.2.2 ++ r.2.2.2)

/-- Second pass of the splitting strategy, one clause (source lines 114–135):
arity 1 gains a fresh variable and its negation, arity 2 one fresh positive
variable, anything else is untouched. -/
def padClause (clause : Clause) (cnt : Nat) :
    Clause × List (List Char) × Nat × List (Char × Nat) :=
  if clause.length = 1 then
    let padVar := helperName 'y' cnt
    let padded := clause ++ [⟨padVar, false⟩, ⟨padVar, true⟩]
    (padded,
      ["Padded ".data ++ formulaToString [clause] ++ " to ".data
        ++ formulaToString [padded] ++ " using ".data ++ padVar],
      cnt + 1, [('y', cnt)])
  else if clause.length = 2 then
    let padVar := helperName 'z' cnt
    let padded := clause ++ [⟨padVar, false⟩]
    (padded,
      ["Padded ".data ++ formulaToString [clause] ++ " to ".data
        ++ formulaToString [padded] ++ " using ".data ++ padVar],
      cnt + 1, [('z', cnt)])
  else (clause, [], cnt, [])

/-- Second pass of the splitting strategy over the whole list (the source's
`result.map`, which threads `helperVarCount` left to right). -/
def padPhase : CNFFormula → Nat →
    CNFFormula × List (List Char) × Nat × List (Char × Nat)
  | [], cnt => ([], [], cnt, [])
  | clause :: rest, cnt =>
    let p := padClause clause cnt
    let r := padPhase rest p.2.2.1
    (p.1 :: r.1, p.2.1 ++ r.2.1, r.2.2.1, p.2.2.2 ++ r.2.2.2)

/-- The padding strategy's `while (padded.length < 3)` loop (source lines
147–151). -/
def padShortLoop (padded : Clause) (cnt : Nat) :
    Clause × List (List Char) × Nat × List (Char × Nat) :=
  if padded.length < 3 then
    let padVar := helperName 'p' cnt
    let r := padShortLoop (padded ++ [⟨padVar, false⟩]) (cnt + 1)
    (r.1, ("Added padding variable ".data ++ padVar) :: r.2.1, r.2.2.1,
      ('p', cnt) :: r.2.2.2)
  else (padded, [], cnt, [])
termination_by 3 - padded.length
decreasing_by simp; omega

/-- The padding-only strategy (source lines 140–161): arity 3 passes through,
shorter clauses are padded with fresh positive variables, longer clauses are
truncated to their first 3 literals. -/
def padOnlyPhase : CNFFormula → Nat →
    CNFFormula × List (List Char) × Nat × List (Char × Nat)
  | [], cnt => ([], [], cnt, [])
  | clause :: rest, cnt =>
    if clause.length = 3 then
      let r := padOnlyPhase rest cnt
      (clause :: r.1, r.2.1, r.2.2.1, r.2.2.2)
    else if clause.length < 3 then
      let note := "Padding short clause ".data ++ formulaToString [clause]
        ++ "...".data
      let s := padShortLoop clause cnt
      let r := padOnlyPhase rest s.2.2.1
      (s.1 :: r.1, note :: s.2.1 ++ r.2.1, r.2.2.1, s.2.2.2 ++ r.2.2.2)
    else
      let note := "Clause ".data ++ formulaToString [clause]
        ++ " is too long - using first 3 literals (simplified)".data
      let r := padOnlyPhase rest cnt
      (clause.take 3 :: r.1, note :: r.2.1, r.2.2.1, r.2.2.2)

/-- The source's return shape `{ formula, steps }`. -/
structure TransformResult where
  formula : CNFFormula
  steps : List (List Char)
deriving DecidableEq, Repr

/-- Source `transformTo3CNF`: dispatch on the method; `'tseitin'` and
`'split'` share one branch (source line 67), `'padding'` has its own.  The
fresh-variable counter starts at 1 and is threaded through both passes. -/
def transformTo3CNF (cnf : CNFFormula) (method : Method) : TransformResult :=
  match method with
  | .tseitin | .split =>
    let s := splitPhase1 cnf 1
    let p := padPhase s.1 s.2.2.1
    { formula := p.1,
      steps := "Identifying clauses that need splitting...".data :: s.2.1
        ++ "Padding short clauses to exactly 3 literals...".data :: p.2.1
        ++ ["Transformation complete! All clauses now have exactly 3 literals.".data] }
  | .padding =>
    let r := padOnlyPhase cnf 1
    { formula := r.1,
      steps := "Using clause padding method...".data :: r.2.1
        ++ ["Transformation complete! All clauses now have exactly 3 literals.".data] }

/-- The (site, counter) pair of every fresh name generated during one run of
`transformTo3CNF`, in generation order (instrumentation of the
`helperVarCount++` sites). -/
def freshPairs (cnf : CNFFormula) (method : Method) : List (Char × Nat) :=
  match method with
  | .tseitin | .split =>
    let s := splitPhase1 cnf 1
    let p := padPhase s.1 s.2.2.1
    s.2.2.2 ++ p.2.2.2
  | .padding => (padOnlyPhase cnf 1).2.2.2

/-- The fresh helper/padding variable names introduced during one run of
`transformTo3CNF`, in generation order. -/
def freshNames (cnf : CNFFormula) (method : Method) : List (List Char) :=
  (freshPairs cnf method).map (fun pk => helperName pk.1 pk.2)

/-- Every variable name occurring in a formula. -/
def varsOf (cnf : CNFFormula) : List (List Char) :=
  (cnf.map (fun cl => cl.map Literal.«variable»)).flatten

/-! ## Validator (source: `validateFormula`) -/

/-- The source's return shape `{ valid, error? }`. -/
structure ValidationResult where
  valid : Bool
  error : Option (List Char)
deriving DecidableEq, Repr

/-- The source's parenthesis loop (lines 176–181): track depth, abort as soon
as it goes negative; `none` models the early `return`, `some d` the final
depth. -/
def parenScan : List Char → Int → Option Int
  | [], d => some d
  | c :: cs, d =>
    let d1 := if c = '(' then d + 1 else d
    let d2 := if c = ')' then d1 - 1 else d1
    if d2 < 0 then none else parenScan cs d2

/-- The character class of the source's `validChars` regex
`^[A-Za-z0-9∨∧¬()\s]+$`. -/
def isValidFormulaChar (c : Char) : Bool :=
  isAlnumChar c || c == '∨' || c == '∧' || c == '¬' || c == '(' || c == ')'
    || c.isWhitespace

/-- Source `validateFormula`: the four checks in source order, each with its
own error string. -/
def validateFormula (input : List Char) : ValidationResult :=
  if trimChars input = [] then
    ⟨false, some "Formula cannot be empty".data⟩
  else
    match parenScan input 0 with
    | none => ⟨false, some "Unbalanced parentheses".data⟩
    | some d =>
      if d ≠ 0 then ⟨false, some "Unbalanced parentheses".data⟩
      else if !(!input.isEmpty && input.all isValidFormulaChar) then
        ⟨false, some "Invalid characters. Use: letters, ∨, ∧, ¬, parentheses".data⟩
      else if includesPair '∧' '∧' input || includesPair '∨' '∨' input then
        ⟨false, some "Consecutive operators not allowed".data⟩
      else ⟨true, none⟩

/-! ## Graph lowering (source: `parseFormulaToGraph`) -/

/-- A vertex of the compatibility graph.  The source's string id
`` `c${clauseIdx}-l${litIdx}` `` is modelled by the pair
`(clauseIdx, litIdx)`, which the string determines and is determined by. -/
structure GLiteral where
  id : Nat × Nat
  «variable» : List Char
  negated : Bool
  clauseIndex : Nat
  position : Nat × Nat
deriving DecidableEq, Repr

/-- An edge; the source's field `from` is a Lean keyword, hence `efrom`. -/
structure GEdge where
  efrom : Nat × Nat
  eto : Nat × Nat
deriving DecidableEq, Repr

/-- The source's hard-coded layout table (lines 500–504). -/
def positionsTable : List (List (Nat × Nat)) :=
  [[(60, 80), (100, 140), (140, 80)],
   [(200, 80), (200, 150), (240, 220)],
   [(300, 150), (340, 80), (380, 140)]]

/-- `positions[clauseIdx]?.[litIdx] || { x: 200, y: 150 }`. -/
def positionAt (ci li : Nat) : Nat × Nat :=
  (positionsTable.getD ci []).getD li (200, 150)

/-- `formula.split('∧').map(c => c.trim().replace(/[()]/g, ''))`. -/
def graphClauses (formula : List Char) : List (List Char) :=
  (splitOnChar '∧' formula).map (fun c => removeParens (trimChars c))

/-- The vertex-building double loop (source lines 506–519). -/
def buildLits (clauses : List (List Char)) : List GLiteral :=
  (clauses.enum.map (fun ci_cl =>
    ((splitOnChar '∨' ci_cl.2).map trimChars).enum.map (fun li_lit =>
      let negated := li_lit.2.headD ' ' == '¬'
      { id := (ci_cl.1, li_lit.1),
        «variable» := if negated then li_lit.2.tail else li_lit.2,
        negated := negated,
        clauseIndex := ci_cl.1,
        position := positionAt ci_cl.1 li_lit.1 }))).flatten

/-- The ordered pairs `(literals[i], literals[j])` with `i < j`, in the
source's double-loop order (lines 522–523). -/
def pairsUpper {α : Type} : List α → List (α × α)
  | [] => []
  | x :: xs => xs.map (fun y => (x, y)) ++ pairsUpper xs

/-- `lit1.variable === lit2.variable && lit1.negated !== lit2.negated`. -/
def contradictory (l1 l2 : GLiteral) : Bool :=
  l1.«variable» == l2.«variable» && l1.negated != l2.negated

/-- The edge-building loop (source lines 522–535). -/
def buildEdges (literals : List GLiteral) : List GEdge :=
  (pairsUpper literals).filterMap (fun p =>
    if p.1.clauseIndex != p.2.clauseIndex && !contradictory p.1 p.2 then
      some ⟨p.1.id, p.2.id⟩
    else none)

/-- Source `parseFormulaToGraph`: vertices then edges. -/
def parseFormulaToGraph (formula : List Char) : List GLiteral × List GEdge :=
  let literals := buildLits (graphClauses formula)
  (literals, buildEdges literals)

/-! ## Clique search (source: `findClique`) -/

/-- `edges.some(e => (e.from === a && e.to === b) || (e.from === b && e.to === a))`. -/
def hasEdge (edges : List GEdge) (a b : Nat × Nat) : Bool :=
  edges.any (fun e => (e.efrom == a && e.eto == b) || (e.efrom == b && e.eto == a))

/-- Source `findClique` (lines 660–686): filter the literals into the three
clause groups `clauseIndex === 0/1/2`, then scan triples in nested-loop
order, returning the first pairwise-connected one, else the empty list. -/
def findClique (literals : List GLiteral) (edges : List GEdge) : List (Nat × Nat) :=
  let g0 := literals.filter (fun l => l.clauseIndex == 0)
  let g1 := literals.filter (fun l => l.clauseIndex == 1)
  let g2 := literals.filter (fun l => l.clauseIndex == 2)
  match g0.findSome? (fun l1 => g1.findSome? (fun l2 => g2.findSome? (fun l3 =>
    if hasEdge edges l1.id l2.id && hasEdge edges l1.id l3.id
        && hasEdge edges l2.id l3.id then
      some [l1.id, l2.id, l3.id]
    else none))) with
  | some w => w
  | none => []

/-! ## Helper lemmas: padding strategy -/

/-- `padShortLoop` only appends, and brings the length up to (at least) 3. -/
lemma padShortLoop_spec (cl : Clause) (cnt : Nat) :
    ∃ ext, (padShortLoop cl cnt).1 = cl ++ ext ∧
      (padShortLoop cl cnt).1.length = max cl.length 3 := by
  induction cl, cnt using padShortLoop.induct with
  | case1 padded cnt h padVar ih =>
    obtain ⟨ext, he, hl⟩ := ih
    rw [padShortLoop]
    simp only [h, if_pos]
    refine ⟨⟨padVar, false⟩ :: ext, ?_, ?_⟩
    · simpa using he
    · rw [hl]; simp; omega
  | case2 padded cnt h =>
    rw [padShortLoop]
    simp only [h, if_neg]
    exact ⟨[], by simp, by simp; omega⟩

/-- The padding strategy's per-clause contract: over-long clauses are
truncated to their first 3 literals, everything else is padded to arity 3
without dropping a literal. -/
def PadRel (cl out : Clause) : Prop :=
  (3 < cl.length → out = cl.take 3) ∧
  (cl.length ≤ 3 → out.length = 3 ∧ out.take cl.length = cl)

lemma padOnlyPhase_forall₂ (cnf : CNFFormula) (cnt : Nat) :
    List.Forall₂ PadRel cnf (padOnlyPhase cnf cnt).1 := by
  induction cnf, cnt using padOnlyPhase.induct with
  | case1 cnt => rw [padOnlyPhase]; exact List.Forall₂.nil
  | case2 clause rest cnt h ih =>
    rw [padOnlyPhase]
    simp only [h, if_pos]
    refine List.Forall₂.cons ⟨fun h3 => by omega, fun _ => ⟨h, by simp [h]⟩⟩ ih
  | case3 clause rest cnt h h2 s ih =>
    rw [padOnlyPhase]
    simp only [h, h2, if_neg, if_pos]
    obtain ⟨ext, he, hl⟩ := padShortLoop_spec clause cnt
    refine List.Forall₂.cons ⟨fun h3 => by omega, fun _ => ⟨?_, ?_⟩⟩ ih
    · rw [hl]; omega
    · rw [he, List.take_left]
  | case4 clause rest cnt h h2 ih =>
    rw [padOnlyPhase]
    simp only [h, h2, if_neg]
    exact List.Forall₂.cons ⟨fun _ => rfl, fun h3 => by omega⟩ ih

/-! ## Helper lemmas: splitting strategy -/

/-- Every clause emitted by the chain-splitting loop on a clause of arity at
least 3 has arity exactly 3. -/
lemma splitLongClause_len (cl : Clause) (cnt : Nat) :
    3 ≤ cl.length → ∀ c ∈ (splitLongClause cl cnt).1, c.length = 3 := by
  induction cl, cnt using splitLongClause.induct with
  | case1 a b c d rest cnt hv ih =>
    intro _ cl' hcl'
    rw [splitLongClause] at hcl'
    rcases List.mem_cons.1 hcl' with h1 | h1
    · simp [h1]
    · exact ih (by simp) cl' h1
  | case2 rem cnt hshape hpos =>
    intro h cl' hcl'
    rcases rem with _ | ⟨a, _ | ⟨b, _ | ⟨c, _ | ⟨d, rest⟩⟩⟩⟩
    · simp at h
    · simp at h
    · simp at h
    · simp [splitLongClause] at hcl'
      simp [hcl']
    · exact absurd rfl (hshape a b c d rest)
  | case3 rem cnt hshape hpos =>
    intro h
    simp at hpos
    rw [hpos] at h
    simp at h

/-- After the first splitting pass every clause has arity between 1 and 3,
provided the input formula has no empty clause. -/
lemma splitPhase1_len :
    ∀ (cnf : CNFFormula) (cnt : Nat), (∀ cl ∈ cnf, cl ≠ []) →
      ∀ c ∈ (splitPhase1 cnf cnt).1, 1 ≤ c.length ∧ c.length ≤ 3 := by
  intro cnf
  induction cnf with
  | nil => intro cnt h c hc; rw [splitPhase1] at hc; simp at hc
  | cons clause rest ih =>
    intro cnt h c hc
    rw [splitPhase1] at hc
    by_cases hlen : clause.length ≤ 3
    · simp only [hlen, if_pos] at hc
      rcases List.mem_cons.1 hc with rfl | h1
      · have hne : c ≠ [] := h c (by simp)
        have := List.length_pos.2 hne
        omega
      · exact ih cnt (fun cl hcl => h cl (by simp [hcl])) c h1
    · simp only [hlen, if_neg, not_false_iff] at hc
      rcases List.mem_append.1 hc with h1 | h1
      · have := splitLongClause_len clause cnt (by omega) c h1
        omega
      · exact ih _ (fun cl hcl => h cl (by simp [hcl])) c h1

/-- The second (padding) pass brings every clause of arity 1–3 to arity
exactly 3. -/
lemma padPhase_len :
    ∀ (cnf : CNFFormula) (cnt : Nat),
      (∀ cl ∈ cnf, 1 ≤ cl.length ∧ cl.length ≤ 3) →
      ∀ c ∈ (padPhase cnf cnt).1, c.length = 3 := by
  intro cnf
  induction cnf with
  | nil => intro cnt h c hc; rw [padPhase] at hc; simp at hc
  | cons clause rest ih =>
    intro cnt h c hc
    rw [padPhase] at hc
    dsimp only at hc
    rcases List.mem_cons.1 hc with rfl | h1
    · have hcl := h clause (by simp)
      unfold padClause
      by_cases h1 : clause.length = 1
      · simp [h1]
      · by_cases h2 : clause.length = 2
        · simp [h1, h2]
        · simp [h1, h2]; omega
    · exact ih _ (fun cl hcl => h cl (by simp [hcl])) c h1

/-! ## Claim C1 -/

/-- C1: for every Formula (clauses non-empty, per the data model), every
clause returned by `transformTo3CNF` with the `'split'` or `'tseitin'`
method has arity exactly 3; the second pass pads an arity-1 clause with a
fresh variable plus its own negation and an arity-2 clause with one fresh
positive variable. -/
theorem split_strategy_arity_three (cnf : CNFFormula)
    (h : ∀ cl ∈ cnf, cl ≠ []) (m : Method)
    (hm : m = Method.split ∨ m = Method.tseitin) :
    (∀ cl ∈ (transformTo3CNF cnf m).formula, cl.length = 3) ∧
    (∀ (cl : Clause) (cnt : Nat), cl.length = 1 →
      (padClause cl cnt).1
        = cl ++ [⟨helperName 'y' cnt, false⟩, ⟨helperName 'y' cnt, true⟩]) ∧
    (∀ (cl : Clause) (cnt : Nat), cl.length = 2 →
      (padClause cl cnt).1 = cl ++ [⟨helperName 'z' cnt, false⟩]) := by
  refine ⟨?_, ?_, ?_⟩
  · intro cl hcl
    have hform : (transformTo3CNF cnf m).formula
        = (padPhase (splitPhase1 cnf 1).1 (splitPhase1 cnf 1).2.2.1).1 := by
      rcases hm with rfl | rfl <;> rfl
    rw [hform] at hcl
    exact padPhase_len _ _ (splitPhase1_len cnf 1 h) cl hcl
  · intro cl cnt h1
    simp [padClause, h1]
  · intro cl cnt h2
    have h1 : ¬ cl.length = 1 := by omega
    simp [padClause, h1, h2]

theorem split_strategy_arity_three_witness :
    (∀ cl ∈ ([[⟨['A'], false⟩],
        [⟨['B'], false⟩, ⟨['C'], true⟩, ⟨['D'], false⟩, ⟨['E'], false⟩,
          ⟨['F'], false⟩]] : CNFFormula), cl ≠ []) ∧
    (∀ cl ∈ (transformTo3CNF [[⟨['A'], false⟩],
        [⟨['B'], false⟩, ⟨['C'], true⟩, ⟨['D'], false⟩, ⟨['E'], false⟩,
          ⟨['F'], false⟩]] Method.split).formula, cl.length = 3) :=
  ⟨by decide,
    (split_strategy_arity_three
      [[⟨['A'], false⟩],
        [⟨['B'], false⟩, ⟨['C'], true⟩, ⟨['D'], false⟩, ⟨['E'], false⟩,
          ⟨['F'], false⟩]]
      (by decide) Method.split (Or.inl rfl)).1⟩

/-! ## Claim C5 -/

/-- C5: under the `'padding'` method each output clause corresponds
position-wise to an input clause; an input clause of arity > 3 yields exactly
its first 3 literals, and an input clause of arity ≤ 3 yields an arity-3
clause extending it (no literal dropped). -/
theorem padding_strategy_take3 (cnf : CNFFormula) :
    List.Forall₂ PadRel cnf (transformTo3CNF cnf Method.padding).formula :=
  padOnlyPhase_forall₂ cnf 1

theorem padding_strategy_take3_witness :
    PadRel [⟨['A'], false⟩]
      ((transformTo3CNF [[⟨['A'], false⟩]] Method.padding).formula.headD []) := by
  have h := padding_strategy_take3 [[⟨['A'], false⟩]]
  rcases h with _ | ⟨h1, -⟩
  exact h1

/-! ## Claim C9 -/

/-- C9: `transformTo3CNF` behaves identically for the `'split'` and
`'tseitin'` method names — they share one branch in the source. -/
theorem gadget_alias_of_split (cnf : CNFFormula) :
    transformTo3CNF cnf Method.split = transformTo3CNF cnf Method.tseitin := rfl

/-! ## Claim C8 -/

/-- C8: `findClique` is deterministic — two calls on the same vertex list and
edge list return the same result. -/
theorem findClique_deterministic (l1 : List GLiteral) (e1 : List GEdge)
    (l2 : List GLiteral) (e2 : List GEdge) (hl : l1 = l2) (he : e1 = e2) :
    findClique l1 e1 = findClique l2 e2 := by
  rw [hl, he]

theorem findClique_deterministic_witness :
    findClique (parseFormulaToGraph "(A) ∧ (B) ∧ (C)".data).1
        (parseFormulaToGraph "(A) ∧ (B) ∧ (C)".data).2
      = findClique (parseFormulaToGraph "(A) ∧ (B) ∧ (C)".data).1
        (parseFormulaToGraph "(A) ∧ (B) ∧ (C)".data).2 :=
  findClique_deterministic _ _ _ _ rfl rfl

/-! ## Claim C10 -/

/-- C10 counterexample: parsing the single NOT symbol constructs a literal
whose variable token is the empty string, so the parser does not guarantee
non-empty variable names on every input. -/
theorem parse_empty_variable_counterexample :
    ¬ (∀ cl ∈ parseFormula "¬".data, ∀ l ∈ cl, l.«variable» ≠ []) := by
  decide

/-- C10 amended: every clause returned by `parseFormula` is non-empty (empty
literal substrings are skipped and clauses yielding zero literals are
dropped), and every *positive* literal has a non-empty variable name; only a
literal substring equal to the bare NOT symbol produces an (empty-named)
negated literal. -/
theorem parse_clauses_nonempty_positive_vars_nonempty (input : List Char) :
    (∀ cl ∈ parseFormula input, cl ≠ []) ∧
    (∀ cl ∈ parseFormula input, ∀ l ∈ cl,
      l.negated = false → l.«variable» ≠ []) := by
  have hmem : ∀ cl ∈ parseFormula input, cl ≠ [] ∧ ∃ cs, cl = parseClause cs := by
    intro cl hcl
    unfold parseFormula at hcl
    rw [List.mem_filterMap] at hcl
    obtain ⟨cs, -, heq⟩ := hcl
    by_cases hlen : (parseClause cs).length > 0
    · simp only [hlen, if_pos, Option.some.injEq] at heq
      subst heq
      exact ⟨by intro h0; rw [h0] at hlen; simp at hlen, cs, rfl⟩
    · simp [hlen] at heq
  constructor
  · intro cl hcl
    exact (hmem cl hcl).1
  · intro cl hcl l hl hneg
    obtain ⟨-, cs, rfl⟩ := hmem cl hcl
    unfold parseClause at hl
    rw [List.mem_filterMap] at hl
    obtain ⟨ls, -, hleq⟩ := hl
    by_cases ht : trimChars ls = []
    · simp [ht] at hleq
    · simp only [ne_eq, ht, not_false_iff, if_pos, Option.some.injEq] at hleq
      subst hleq
      unfold parseLiteral at hneg ⊢
      simp only at hneg ⊢
      rw [hneg] at *
      simp only [Bool.false_eq_true, if_false]
      intro h0
      rw [h0] at ht
      exact ht rfl

theorem parse_nonempty_witness :
    ([({ «variable» := ['A'], negated := false } : Literal)] ≠ ([] : Clause)) ∧
    (['A'] : List Char) ≠ [] := by
  have h := parse_clauses_nonempty_positive_vars_nonempty "(A)".data
  exact ⟨h.1 _ (by decide),
    h.2 [{ «variable» := ['A'], negated := false }] (by decide)
      { «variable» := ['A'], negated := false } (by decide) (by decide)⟩

/-! ## Claim C3 -/

/-- C3 counterexample: on a graph lowered from a four-clause 3-CNF formula,
`findClique` returns a non-empty selection that contains no vertex of clause
index 3, so it does not select one vertex per clause for graphs with more
than three clauses. -/
theorem findClique_four_clause_counterexample :
    ((parseFormulaToGraph "(A∨B∨C)∧(D∨E∨F)∧(G∨H∨I)∧(J∨K∨L)".data).1.any
        (fun l => l.clauseIndex == 3)) = true ∧
    findClique (parseFormulaToGraph "(A∨B∨C)∧(D∨E∨F)∧(G∨H∨I)∧(J∨K∨L)".data).1
        (parseFormulaToGraph "(A∨B∨C)∧(D∨E∨F)∧(G∨H∨I)∧(J∨K∨L)".data).2
      = [(0, 0), (1, 0), (2, 0)] ∧
    (∀ v ∈ findClique
        (parseFormulaToGraph "(A∨B∨C)∧(D∨E∨F)∧(G∨H∨I)∧(J∨K∨L)".data).1
        (parseFormulaToGraph "(A∨B∨C)∧(D∨E∨F)∧(G∨H∨I)∧(J∨K∨L)".data).2,
      v.1 ≠ 3) := by
  decide

/-- C3 amended: `findClique` is specialized to clause indices 0, 1, 2.  For
every graph it either returns the id list of a pairwise-connected triple with
one vertex from each of the clause groups 0, 1 and 2 (the first such triple
in nested-loop order), or returns the empty list, in which case no such
triple exists.  Restricted to graphs with exactly three clauses this is the
claimed contract; it never returns a partial or non-clique selection. -/
theorem findClique_correct (lits : List GLiteral) (edges : List GEdge) :
    (∃ l1 ∈ lits, ∃ l2 ∈ lits, ∃ l3 ∈ lits,
      l1.clauseIndex = 0 ∧ l2.clauseIndex = 1 ∧ l3.clauseIndex = 2 ∧
      hasEdge edges l1.id l2.id = true ∧ hasEdge edges l1.id l3.id = true ∧
      hasEdge edges l2.id l3.id = true ∧
      findClique lits edges = [l1.id, l2.id, l3.id]) ∨
    (findClique lits edges = [] ∧
      ∀ l1 ∈ lits, l1.clauseIndex = 0 → ∀ l2 ∈ lits, l2.clauseIndex = 1 →
        ∀ l3 ∈ lits, l3.clauseIndex = 2 →
        ¬(hasEdge edges l1.id l2.id = true ∧ hasEdge edges l1.id l3.id = true ∧
          hasEdge edges l2.id l3.id = true)) := by
  cases hF : (lits.filter (fun l => l.clauseIndex == 0)).findSome?
      (fun l1 => (lits.filter (fun l => l.clauseIndex == 1)).findSome?
        (fun l2 => (lits.filter (fun l => l.clauseIndex == 2)).findSome?
          (fun l3 =>
            if hasEdge edges l1.id l2.id && hasEdge edges l1.id l3.id
                && hasEdge edges l2.id l3.id then
              some [l1.id, l2.id, l3.id]
            else none))) with
  | some w =>
    left
    obtain ⟨l1, hl1, h1⟩ := List.exists_of_findSome?_eq_some hF
    obtain ⟨l2, hl2, h2⟩ := List.exists_of_findSome?_eq_some h1
    obtain ⟨l3, hl3, h3⟩ := List.exists_of_findSome?_eq_some h2
    by_cases hcond : hasEdge edges l1.id l2.id && hasEdge edges l1.id l3.id
        && hasEdge edges l2.id l3.id
    · rw [if_pos hcond, Option.some_inj] at h3
      have hm1 := List.mem_filter.1 hl1
      have hm2 := List.mem_filter.1 hl2
      have hm3 := List.mem_filter.1 hl3
      simp only [beq_iff_eq] at hm1 hm2 hm3
      refine ⟨l1, hm1.1, l2, hm2.1, l3, hm3.1, hm1.2, hm2.2, hm3.2, ?_, ?_, ?_, ?_⟩
      · simp only [Bool.and_eq_true] at hcond; exact hcond.1.1
      · simp only [Bool.and_eq_true] at hcond; exact hcond.1.2
      · simp only [Bool.and_eq_true] at hcond; exact hcond.2
      · simp only [findClique]
        rw [hF]
        exact h3.symm
    · rw [if_neg hcond] at h3
      exact absurd h3 (by simp)
  | none =>
    right
    refine ⟨by simp only [findClique]; rw [hF], ?_⟩
    intro l1 hl1 hc1 l2 hl2 hc2 l3 hl3 hc3 ⟨he1, he2, he3⟩
    rw [List.findSome?_eq_none_iff] at hF
    have h1 := hF l1 (List.mem_filter.2 ⟨hl1, by simp [hc1]⟩)
    rw [List.findSome?_eq_none_iff] at h1
    have h2 := h1 l2 (List.mem_filter.2 ⟨hl2, by simp [hc2]⟩)
    rw [List.findSome?_eq_none_iff] at h2
    have h3 := h2 l3 (List.mem_filter.2 ⟨hl3, by simp [hc3]⟩)
    rw [if_pos (by simp [he1, he2, he3])] at h3
    exact absurd h3 (by simp)

/-! ## Claim C7 -/

/-- A logical-connective symbol (AND, OR, NOT). -/
def isConnective (c : Char) : Bool := c == '∧' || c == '∨' || c == '¬'

/-- Modelled from the spec: "no two logical-connective symbols appear
consecutively" — some adjacent pair of characters are both connectives. -/
def specConsecutiveConnectives : List Char → Bool
  | x :: y :: rest => (isConnective x && isConnective y)
      || specConsecutiveConnectives (y :: rest)
  | _ => false

/-- C7 counterexample: `"A∧∨B"` passes the first three checks and contains
two consecutive logical-connective symbols, yet `validateFormula` accepts it
— the source only rejects the doubled pairs `∧∧` and `∨∨`. -/
theorem validate_consecutive_counterexample :
    (trimChars "A∧∨B".data ≠ [] ∧ parenScan "A∧∨B".data 0 = some 0 ∧
      "A∧∨B".data.all isValidFormulaChar = true ∧
      specConsecutiveConnectives "A∧∨B".data = true) ∧
    validateFormula "A∧∨B".data = ⟨true, none⟩ := by
  decide

/-- If the whole input trims to the empty string, the input is empty.
(Contrapositive form used below.) -/
lemma trimChars_nil : trimChars [] = [] := rfl

/-- C7 amended: the four checks run in source order with four pairwise
distinct named reasons; the empty check fires first; and for every text that
passes the first three checks, `validateFormula` returns the
ConsecutiveOperators reason exactly when the text contains `∧∧` or `∨∨` as a
substring (adjacent distinct connective symbols such as `∧∨`, and `¬¬`, are
not rejected). -/
theorem validateFormula_order_and_reasons (input : List Char) :
    (["Formula cannot be empty".data, "Unbalanced parentheses".data,
      "Invalid characters. Use: letters, ∨, ∧, ¬, parentheses".data,
      "Consecutive operators not allowed".data].Pairwise (· ≠ ·)) ∧
    (trimChars input = [] →
      validateFormula input = ⟨false, some "Formula cannot be empty".data⟩) ∧
    (trimChars input ≠ [] → parenScan input 0 ≠ some 0 →
      validateFormula input = ⟨false, some "Unbalanced parentheses".data⟩) ∧
    (trimChars input ≠ [] → parenScan input 0 = some 0 →
      input.all isValidFormulaChar = false →
      validateFormula input
        = ⟨false, some "Invalid characters. Use: letters, ∨, ∧, ¬, parentheses".data⟩) ∧
    (trimChars input ≠ [] → parenScan input 0 = some 0 →
      input.all isValidFormulaChar = true →
      ((validateFormula input).error
          = some "Consecutive operators not allowed".data
        ↔ (includesPair '∧' '∧' input = true ∨ includesPair '∨' '∨' input = true))) := by
  refine ⟨by decide, ?_, ?_, ?_, ?_⟩
  · intro ht
    unfold validateFormula
    rw [if_pos ht]
  · intro ht hps
    unfold validateFormula
    rw [if_neg ht]
    cases hp : parenScan input 0 with
    | none => rfl
    | some d =>
      have hd : d ≠ 0 := fun h0 => hps (by rw [hp, h0])
      dsimp only
      rw [if_pos hd]
  · intro ht hps hall
    unfold validateFormula
    rw [if_neg ht, hps]
    dsimp only
    rw [if_neg (by simp : ¬((0 : Int) ≠ 0))]
    rw [if_pos (by simp [hall])]
  · intro ht hps hall
    have hne : input ≠ [] := fun h0 => ht (by rw [h0]; rfl)
    unfold validateFormula
    rw [if_neg ht, hps]
    dsimp only
    rw [if_neg (by simp : ¬((0 : Int) ≠ 0))]
    rw [if_neg (by simp [hall, List.isEmpty_eq_true, hne])]
    by_cases hinc : includesPair '∧' '∧' input || includesPair '∨' '∨' input
    · rw [if_pos hinc]
      simp only [Bool.or_eq_true] at hinc
      exact ⟨fun _ => hinc, fun _ => rfl⟩
    · rw [if_neg hinc]
      simp only [Bool.or_eq_true] at hinc
      exact ⟨fun h => by simp at h, fun h => absurd h hinc⟩

theorem validateFormula_order_witness :
    (validateFormula "A∧∧B".data).error
      = some "Consecutive operators not allowed".data := by
  have h := validateFormula_order_and_reasons "A∧∧B".data
  exact (h.2.2.2.2 (by decide) (by decide) (by decide)).mpr (Or.inl (by decide))

/-! ## String toolkit lemmas for the round-trip and graph-lowering claims -/

lemma splitOnChar_ne_nil (sep : Char) (s : List Char) : splitOnChar sep s ≠ [] := by
  cases s with
  | nil => simp [splitOnChar]
  | cons c cs =>
    unfold splitOnChar
    by_cases h : c = sep <;> simp [h]

lemma splitOnChar_not_mem (sep : Char) (s : List Char) (h : sep ∉ s) :
    splitOnChar sep s = [s] := by
  induction s with
  | nil => rfl
  | cons c cs ih =>
    have hc : ¬ c = sep := fun hc => h (hc ▸ List.mem_cons_self c cs)
    have ihs := ih (fun hm => h (List.mem_cons_of_mem c hm))
    unfold splitOnChar
    rw [if_neg hc, ihs]
    rfl

lemma splitOnChar_append_sep (sep : Char) (x t : List Char) (h : sep ∉ x) :
    splitOnChar sep (x ++ sep :: t) = x :: splitOnChar sep t := by
  induction x with
  | nil => simp [splitOnChar]
  | cons c x' ih =>
    have hc : ¬ c = sep := fun hc => h (hc ▸ List.mem_cons_self c x')
    have ihs := ih (fun hm => h (List.mem_cons_of_mem c hm))
    show splitOnChar sep (c :: (x' ++ sep :: t)) = (c :: x') :: splitOnChar sep t
    have step : splitOnChar sep (c :: (x' ++ sep :: t))
        = (c :: (splitOnChar sep (x' ++ sep :: t)).headD [])
          :: (splitOnChar sep (x' ++ sep :: t)).tail := by
      rw [splitOnChar]
      rw [if_neg hc]
    rw [step, ihs]
    rfl

lemma filter_joinSep (p : Char → Bool) (sep : List Char) (ss : List (List Char)) :
    (joinSep sep ss).filter p = joinSep (sep.filter p) (ss.map (List.filter p)) := by
  induction ss with
  | nil => rfl
  | cons x ss ih =>
    cases ss with
    | nil => rfl
    | cons y t =>
      show (x ++ sep ++ joinSep sep (y :: t)).filter p = _
      rw [List.filter_append, List.filter_append, ih]
      rfl

lemma joinSep_not_mem (c : Char) (sep : List Char) (ss : List (List Char))
    (hsep : c ∉ sep) (hss : ∀ s ∈ ss, c ∉ s) : c ∉ joinSep sep ss := by
  induction ss with
  | nil => simp [joinSep]
  | cons x ss ih =>
    cases ss with
    | nil => exact hss x (by simp)
    | cons y t =>
      show c ∉ x ++ sep ++ joinSep sep (y :: t)
      intro hmem
      rcases List.mem_append.1 hmem with hmem | hmem
      · rcases List.mem_append.1 hmem with hmem | hmem
        · exact hss x (by simp) hmem
        · exact hsep hmem
      · exact ih (fun s hs => hss s (by simp [hs])) hmem

lemma dropWhile_ws_eq_self (s : List Char)
    (h : ∀ c ∈ s.head?, c.isWhitespace = false) :
    s.dropWhile Char.isWhitespace = s := by
  cases s with
  | nil => rfl
  | cons c cs =>
    rw [List.dropWhile_cons, if_neg]
    simp only [List.head?_cons, Option.mem_def, Option.some.injEq] at h
    simp [h c rfl]

lemma trim_cons_space (s : List Char) : trimChars (' ' :: s) = trimChars s := by
  unfold trimChars
  rw [List.dropWhile_cons, if_pos (by decide)]

lemma trim_append_space (s : List Char) : trimChars (s ++ [' ']) = trimChars s := by
  unfold trimChars
  rw [List.dropWhile_append]
  by_cases he : (s.dropWhile Char.isWhitespace).isEmpty
  · rw [if_pos he]
    rw [List.isEmpty_iff] at he
    rw [he]
    rfl
  · rw [if_neg he]
    rw [List.reverse_append]
    simp only [List.reverse_cons, List.reverse_nil, List.nil_append,
      List.singleton_append]
    rw [List.dropWhile_cons, if_pos (by decide)]

lemma trim_no_ws (s : List Char) (h : ∀ c ∈ s, c.isWhitespace = false) :
    trimChars s = s := by
  unfold trimChars
  rw [dropWhile_ws_eq_self s (fun c hc => h c (List.mem_of_mem_head? hc))]
  rw [dropWhile_ws_eq_self _ (fun c hc => h c (by
    have := List.mem_of_mem_head? hc
    rw [List.mem_reverse] at this
    exact this))]
  exact List.reverse_reverse s

lemma trim_wrap (c d : Char) (mid : List Char)
    (hc : c.isWhitespace = false) (hd : d.isWhitespace = false) :
    trimChars (c :: (mid ++ [d])) = c :: (mid ++ [d]) := by
  unfold trimChars
  rw [List.dropWhile_cons, if_neg (by simp [hc])]
  have h1 : (c :: (mid ++ [d])).reverse = d :: (mid.reverse ++ [c]) := by simp
  rw [h1, List.dropWhile_cons, if_neg (by simp [hd]), ← h1, List.reverse_reverse]

/-! ## Character-class facts -/

lemma alnum_not_ws (c : Char) (h : isAlnumChar c = true) :
    c.isWhitespace = false := by
  cases hw : c.isWhitespace
  · rfl
  · exfalso
    simp only [Char.isWhitespace, Bool.or_eq_true, decide_eq_true_eq] at hw
    rcases hw with ((rfl | rfl) | rfl) | rfl <;> exact absurd h (by decide)

lemma alnum_ne_syms (c : Char) (h : isAlnumChar c = true) :
    c ≠ '∧' ∧ c ≠ '∨' ∧ c ≠ '¬' ∧ c ≠ '(' ∧ c ≠ ')' := by
  refine ⟨?_, ?_, ?_, ?_, ?_⟩ <;> (rintro rfl; exact absurd h (by decide))

/-! ## Rendered-literal facts -/

lemma litStr_chars (l : Literal) (h : GoodVar l.«variable») :
    ∀ c ∈ literalToString l, c = '¬' ∨ isAlnumChar c = true := by
  intro c hc
  unfold literalToString at hc
  rcases List.mem_append.1 hc with hc | hc
  · left
    cases hneg : l.negated
    · rw [hneg] at hc; simp at hc
    · rw [hneg] at hc; simpa using hc
  · right; exact h.2 c hc

lemma litStr_ne_nil (l : Literal) (h : GoodVar l.«variable») :
    literalToString l ≠ [] := by
  unfold literalToString
  intro h0
  rcases List.append_eq_nil.1 h0 with ⟨-, h2⟩
  exact h.1 h2

lemma litStr_no_ws (l : Literal) (h : GoodVar l.«variable») :
    ∀ c ∈ literalToString l, c.isWhitespace = false := by
  intro c hc
  rcases litStr_chars l h c hc with rfl | hc2
  · decide
  · exact alnum_not_ws c hc2

lemma litStr_not_mem_syms (l : Literal) (h : GoodVar l.«variable») :
    '∧' ∉ literalToString l ∧ '∨' ∉ literalToString l ∧
    '(' ∉ literalToString l ∧ ')' ∉ literalToString l := by
  refine ⟨?_, ?_, ?_, ?_⟩ <;> intro hm
  · rcases litStr_chars l h _ hm with hc | hc <;> exact absurd hc (by decide)
  · rcases litStr_chars l h _ hm with hc | hc <;> exact absurd hc (by decide)
  · rcases litStr_chars l h _ hm with hc | hc <;> exact absurd hc (by decide)
  · rcases litStr_chars l h _ hm with hc | hc <;> exact absurd hc (by decide)

lemma parseLiteral_litStr (l : Literal) (h : GoodVar l.«variable») :
    parseLiteral (literalToString l) = l := by
  obtain ⟨v, neg⟩ := l
  obtain ⟨v0, vrest, rfl⟩ : ∃ a t, v = a :: t := by
    cases hv : v with
    | nil => exact absurd hv h.1
    | cons a t => exact ⟨a, t, rfl⟩
  have hv0 : isAlnumChar v0 = true := h.2 v0 (by simp)
  have hne : ¬ v0 = '¬' := (alnum_ne_syms v0 hv0).2.2.1
  cases neg
  · show parseLiteral ([] ++ (v0 :: vrest)) = _
    unfold parseLiteral
    simp only [List.nil_append, List.headD_cons]
    rw [show (v0 == '¬') = false from beq_eq_false_iff_ne.2 hne]
    simp
  · show parseLiteral (['¬'] ++ (v0 :: vrest)) = _
    unfold parseLiteral
    simp

/-! ## Rendered-clause and rendered-formula facts -/

lemma core_not_mem (cl : Clause) (h : ∀ l ∈ cl, GoodVar l.«variable»)
    (c : Char) (hc : c = '∧' ∨ c = '(' ∨ c = ')') :
    c ∉ joinSep [' ', '∨', ' '] (cl.map literalToString) := by
  apply joinSep_not_mem
  · rcases hc with rfl | rfl | rfl <;> decide
  · intro s hs
    obtain ⟨l, hl, rfl⟩ := List.mem_map.1 hs
    have hsyms := litStr_not_mem_syms l (h l hl)
    rcases hc with rfl | rfl | rfl
    · exact hsyms.1
    · exact hsyms.2.2.1
    · exact hsyms.2.2.2

lemma removeWS_clause (cl : Clause) (h : ∀ l ∈ cl, GoodVar l.«variable») :
    removeWhitespace (clauseToString cl)
      = '(' :: (joinSep ['∨'] (cl.map literalToString) ++ [')']) := by
  unfold removeWhitespace clauseToString
  rw [List.filter_append, List.filter_cons, if_pos (by decide), List.cons_append]
  have h2 : List.filter (fun c => !c.isWhitespace) [')'] = [')'] := rfl
  rw [h2, filter_joinSep]
  have h3 : List.filter (fun c => !c.isWhitespace) [' ', '∨', ' '] = ['∨'] := rfl
  rw [h3, List.map_map]
  have h4 : List.map ((List.filter fun c => !c.isWhitespace) ∘ literalToString) cl
      = List.map literalToString cl :=
    List.map_congr_left (fun l hl =>
      List.filter_eq_self.2 (fun c hc => by
        simp only [Bool.not_eq_true']
        exact litStr_no_ws l (h l hl) c hc))
  rw [h4]

lemma removeWS_formula (cnf : CNFFormula) (h : GoodCNF cnf) :
    removeWhitespace (formulaToString cnf)
      = joinSep ['∧'] (cnf.map (fun cl =>
          '(' :: (joinSep ['∨'] (cl.map literalToString) ++ [')']))) := by
  unfold removeWhitespace formulaToString
  rw [filter_joinSep]
  congr 1
  rw [List.map_map]
  exact List.map_congr_left (fun cl hcl => removeWS_clause cl (h cl hcl).2)

lemma splitOnChar_joinSep (sep : Char) (ss : List (List Char)) (hne : ss ≠ [])
    (h : ∀ s ∈ ss, sep ∉ s) : splitOnChar sep (joinSep [sep] ss) = ss := by
  induction ss with
  | nil => exact absurd rfl hne
  | cons x t ih =>
    cases t with
    | nil => exact splitOnChar_not_mem sep x (h x (by simp))
    | cons y t' =>
      show splitOnChar sep (x ++ [sep] ++ joinSep [sep] (y :: t')) = _
      rw [List.append_assoc, List.singleton_append]
      rw [splitOnChar_append_sep sep x _ (h x (by simp))]
      rw [ih (by simp) (fun s hs => h s (by simp [hs]))]

lemma mem_joinSep (c : Char) (sep : List Char) (ss : List (List Char))
    (h : c ∈ joinSep sep ss) : c ∈ sep ∨ ∃ s ∈ ss, c ∈ s := by
  induction ss with
  | nil => simp [joinSep] at h
  | cons x t ih =>
    cases t with
    | nil => exact Or.inr ⟨x, by simp, h⟩
    | cons y t' =>
      rw [show joinSep sep (x :: y :: t') = x ++ sep ++ joinSep sep (y :: t') from rfl]
        at h
      rcases List.mem_append.1 h with h1 | h1
      · rcases List.mem_append.1 h1 with h2 | h2
        · exact Or.inr ⟨x, by simp, h2⟩
        · exact Or.inl h2
      · rcases ih h1 with h2 | ⟨s, hs, hcs⟩
        · exact Or.inl h2
        · exact Or.inr ⟨s, by simp [hs], hcs⟩

lemma parseClause_clean (cl : Clause) (hne : cl ≠ [])
    (h : ∀ l ∈ cl, GoodVar l.«variable») :
    parseClause ('(' :: (joinSep ['∨'] (cl.map literalToString) ++ [')'])) = cl := by
  unfold parseClause
  dsimp only
  have h1 : removeParens ('(' :: (joinSep ['∨'] (cl.map literalToString) ++ [')']))
      = joinSep ['∨'] (cl.map literalToString) := by
    unfold removeParens
    rw [List.filter_cons, if_neg (by decide), List.filter_append]
    have h2 : List.filter (fun c => !(c == '(' || c == ')')) [')'] = [] := rfl
    rw [h2, List.append_nil]
    apply List.filter_eq_self.2
    intro c hc
    rcases mem_joinSep c _ _ hc with hsep | ⟨s, hs, hcs⟩
    · rcases List.mem_singleton.1 hsep with rfl
      decide
    · obtain ⟨l, hl, rfl⟩ := List.mem_map.1 hs
      have hsyms := litStr_not_mem_syms l (h l hl)
      have hcp : c ≠ '(' := fun he => hsyms.2.2.1 (he ▸ hcs)
      have hcq : c ≠ ')' := fun he => hsyms.2.2.2 (he ▸ hcs)
      simp [hcp, hcq]
  rw [h1]
  rw [splitOnChar_joinSep '∨' _ (by simp [hne]) (fun s hs => by
    obtain ⟨l, hl, rfl⟩ := List.mem_map.1 hs
    exact (litStr_not_mem_syms l (h l hl)).2.1)]
  rw [List.filterMap_map]
  refine Eq.trans (List.filterMap_congr (fun l hl => ?_)) (List.filterMap_some cl)
  have hg := h l hl
  have htr : trimChars (literalToString l) = literalToString l :=
    trim_no_ws _ (litStr_no_ws l hg)
  have hnn : trimChars (literalToString l) ≠ [] := by
    rw [htr]; exact litStr_ne_nil l hg
  simp only [Function.comp_apply, ne_eq, hnn, not_false_iff, if_pos]
  rw [parseLiteral_litStr l hg]

/-! ## Claim C4 -/

/-- C4: for every Formula produced by this system (non-empty clauses,
non-empty letter/digit variable names), parsing the rendered text yields a
structurally equal Formula: `parseFormula (formulaToString f) = f`. -/
theorem parse_render_roundtrip (cnf : CNFFormula) (h : GoodCNF cnf) :
    parseFormula (formulaToString cnf) = cnf := by
  by_cases hne : cnf = []
  · subst hne; rfl
  · unfold parseFormula
    dsimp only
    rw [removeWS_formula cnf h]
    rw [splitOnChar_joinSep '∧' _ (by simp [hne]) (fun s hs => by
      obtain ⟨cl, hcl, rfl⟩ := List.mem_map.1 hs
      intro hmem
      rcases List.mem_cons.1 hmem with he | hmem2
      · exact absurd he (by decide)
      · rcases List.mem_append.1 hmem2 with h3 | h3
        · rcases mem_joinSep _ _ _ h3 with h4 | ⟨t, ht, h4⟩
          · exact absurd (List.mem_singleton.1 h4) (by decide)
          · obtain ⟨l, hl, rfl⟩ := List.mem_map.1 ht
            exact (litStr_not_mem_syms l ((h cl hcl).2 l hl)).1 h4
        · exact absurd (List.mem_singleton.1 h3) (by decide))]
    rw [List.filterMap_map]
    refine Eq.trans (List.filterMap_congr (fun cl hcl => ?_))
      (List.filterMap_some cnf)
    have hgood := h cl hcl
    have hp := parseClause_clean cl hgood.1 hgood.2
    simp only [Function.comp_apply]
    rw [hp]
    rw [if_pos (List.length_pos.2 hgood.1)]

theorem parse_render_roundtrip_witness :
    GoodCNF [[⟨['A'], false⟩, ⟨['B'], true⟩], [⟨['C'], false⟩]] ∧
    parseFormula (formulaToString
        [[⟨['A'], false⟩, ⟨['B'], true⟩], [⟨['C'], false⟩]])
      = [[⟨['A'], false⟩, ⟨['B'], true⟩], [⟨['C'], false⟩]] :=
  ⟨by decide,
    parse_render_roundtrip [[⟨['A'], false⟩, ⟨['B'], true⟩], [⟨['C'], false⟩]]
      (by decide)⟩

/-! ## Graph-lowering lemmas -/

lemma map_trim_split_cons_space (sep : Char) (hsep : ¬ ' ' = sep) (w : List Char) :
    (splitOnChar sep (' ' :: w)).map trimChars
      = (splitOnChar sep w).map trimChars := by
  obtain ⟨r0, rt, hr⟩ : ∃ a t, splitOnChar sep w = a :: t := by
    cases hq : splitOnChar sep w with
    | nil => exact absurd hq (splitOnChar_ne_nil sep w)
    | cons a t => exact ⟨a, t, rfl⟩
  have hstep : splitOnChar sep (' ' :: w) = (' ' :: r0) :: rt := by
    rw [splitOnChar, if_neg hsep, hr]
    rfl
  rw [hstep, hr]
  simp only [List.map_cons]
  rw [trim_cons_space]

lemma map_trim_split_spaced (sep : Char) (hsep : ¬ ' ' = sep)
    (ss : List (List Char)) (hne : ss ≠ [])
    (hs1 : ∀ s ∈ ss, sep ∉ s) (hs2 : ∀ s ∈ ss, trimChars s = s) :
    (splitOnChar sep (joinSep [' ', sep, ' '] ss)).map trimChars = ss := by
  induction ss with
  | nil => exact absurd rfl hne
  | cons x t ih =>
    cases t with
    | nil =>
      show (splitOnChar sep x).map trimChars = [x]
      rw [splitOnChar_not_mem sep x (hs1 x (by simp))]
      simp [hs2 x (by simp)]
    | cons y t' =>
      have hx : sep ∉ x ++ [' '] := by
        intro hm
        rcases List.mem_append.1 hm with hm | hm
        · exact hs1 x (by simp) hm
        · exact hsep (List.mem_singleton.1 hm).symm
      have hshape : joinSep [' ', sep, ' '] (x :: y :: t')
          = (x ++ [' ']) ++ sep :: (' ' :: joinSep [' ', sep, ' '] (y :: t')) := by
        show x ++ [' ', sep, ' '] ++ joinSep [' ', sep, ' '] (y :: t') = _
        simp
      rw [hshape, splitOnChar_append_sep sep _ _ hx]
      simp only [List.map_cons]
      rw [trim_append_space, hs2 x (by simp)]
      rw [map_trim_split_cons_space sep hsep]
      rw [ih (by simp) (fun s hs => hs1 s (by simp [hs]))
        (fun s hs => hs2 s (by simp [hs]))]

lemma removeParens_clause (cl : Clause) (h : ∀ l ∈ cl, GoodVar l.«variable») :
    removeParens (clauseToString cl)
      = joinSep [' ', '∨', ' '] (cl.map literalToString) := by
  unfold removeParens clauseToString
  rw [List.filter_append, List.filter_cons, if_neg (by decide)]
  have h2 : List.filter (fun c => !(c == '(' || c == ')')) [')'] = [] := rfl
  rw [h2, List.append_nil]
  apply List.filter_eq_self.2
  intro c hc
  rcases mem_joinSep c _ _ hc with hm | ⟨s, hs, hcs⟩
  · simp only [List.mem_cons, List.mem_singleton, List.not_mem_nil, or_false] at hm
    rcases hm with rfl | rfl | rfl <;> decide
  · obtain ⟨l, hl, rfl⟩ := List.mem_map.1 hs
    have hsyms := litStr_not_mem_syms l (h l hl)
    have hcp : c ≠ '(' := fun he => hsyms.2.2.1 (he ▸ hcs)
    have hcq : c ≠ ')' := fun he => hsyms.2.2.2 (he ▸ hcs)
    simp [hcp, hcq]

lemma graphClauses_render (cnf : CNFFormula) (h : GoodCNF cnf) (hne : cnf ≠ []) :
    graphClauses (formulaToString cnf)
      = cnf.map (fun cl => joinSep [' ', '∨', ' '] (cl.map literalToString)) := by
  unfold graphClauses formulaToString
  have hcomp : ∀ (X : List (List Char)),
      List.map (fun c => removeParens (trimChars c)) X
        = List.map removeParens (List.map trimChars X) :=
    fun X => (List.map_map removeParens trimChars X).symm
  rw [hcomp]
  rw [map_trim_split_spaced '∧' (by decide) _ (by simp [hne])
    (fun s hs => by
      obtain ⟨cl, hcl, rfl⟩ := List.mem_map.1 hs
      unfold clauseToString
      intro hm
      rcases List.mem_append.1 hm with hm | hm
      · rcases List.mem_cons.1 hm with he | hm2
        · exact absurd he (by decide)
        · exact core_not_mem cl (h cl hcl).2 '∧' (Or.inl rfl) hm2
      · exact absurd (List.mem_singleton.1 hm) (by decide))
    (fun s hs => by
      obtain ⟨cl, hcl, rfl⟩ := List.mem_map.1 hs
      exact trim_wrap '(' ')' _ (by decide) (by decide))]
  rw [List.map_map]
  exact List.map_congr_left (fun cl hcl => removeParens_clause cl (h cl hcl).2)

lemma snd_mem_enum {α : Type} {p : Nat × α} {l : List α} (h : p ∈ l.enum) :
    p.2 ∈ l := by
  obtain ⟨i, x⟩ := p
  obtain ⟨hi, hx⟩ := List.mem_enum h
  rw [hx]
  exact List.getElem_mem hi

lemma token_fields (l : Literal) (h : GoodVar l.«variable») :
    ((literalToString l).headD ' ' == '¬') = l.negated ∧
    (if ((literalToString l).headD ' ' == '¬') = true then (literalToString l).tail
      else literalToString l) = l.«variable» := by
  obtain ⟨v, neg⟩ := l
  obtain ⟨v0, vrest, rfl⟩ : ∃ a t, v = a :: t := by
    cases hv : v with
    | nil => exact absurd hv h.1
    | cons a t => exact ⟨a, t, rfl⟩
  have hne : ¬ v0 = '¬' :=
    (alnum_ne_syms v0 (h.2 v0 (by simp))).2.2.1
  cases neg
  · have hb : ((literalToString ⟨v0 :: vrest, false⟩).headD ' ' == '¬') = false := by
      show ((([] : List Char) ++ (v0 :: vrest)).headD ' ' == '¬') = false
      simpa using beq_eq_false_iff_ne.2 hne
    refine ⟨hb, ?_⟩
    rw [hb]
    simp
    rfl
  · have hb : ((literalToString ⟨v0 :: vrest, true⟩).headD ' ' == '¬') = true := by
      show (((['¬'] : List Char) ++ (v0 :: vrest)).headD ' ' == '¬') = true
      simp
    refine ⟨hb, ?_⟩
    rw [hb]
    simp
    rfl

/-- The vertex list that graph lowering produces on a rendered formula: one
vertex per literal occurrence, keyed by clause index and position. -/
def litsSpec (cnf : CNFFormula) : List GLiteral :=
  (cnf.enum.map (fun p => p.2.enum.map (fun q =>
    { id := (p.1, q.1), «variable» := q.2.«variable», negated := q.2.negated,
      clauseIndex := p.1, position := positionAt p.1 q.1 }))).flatten

lemma buildLits_render (cnf : CNFFormula) (h : GoodCNF cnf) (hne : cnf ≠ []) :
    buildLits (graphClauses (formulaToString cnf)) = litsSpec cnf := by
  rw [graphClauses_render cnf h hne]
  unfold buildLits litsSpec
  congr 1
  rw [List.enum_map, List.map_map]
  apply List.map_congr_left
  intro p hp
  have hcl : p.2 ∈ cnf := snd_mem_enum hp
  have hgood := h p.2 hcl
  dsimp only [Function.comp_apply, Prod.map_fst, Prod.map_snd, id_eq]
  rw [map_trim_split_spaced '∨' (by decide) _
    (by simpa using hgood.1)
    (fun s hs => by
      obtain ⟨l, hl, rfl⟩ := List.mem_map.1 hs
      exact (litStr_not_mem_syms l (hgood.2 l hl)).2.1)
    (fun s hs => by
      obtain ⟨l, hl, rfl⟩ := List.mem_map.1 hs
      exact trim_no_ws _ (litStr_no_ws l (hgood.2 l hl)))]
  rw [List.enum_map, List.map_map]
  apply List.map_congr_left
  intro q hq
  have hlit : q.2 ∈ p.2 := snd_mem_enum hq
  have hg := hgood.2 q.2 hlit
  have htf := token_fields q.2 hg
  dsimp only [Function.comp_apply, Prod.map_fst, Prod.map_snd, id_eq]
  rw [htf.2, htf.1]

lemma map_length_sum {α β : Type} (L : List α) (f : α → List β)
    (h : ∀ a ∈ L, (f a).length = 3) :
    (List.map List.length (List.map f L)).sum = 3 * L.length := by
  induction L with
  | nil => simp
  | cons a t ih =>
    simp only [List.map_cons, List.sum_cons, h a (by simp), List.length_cons,
      ih (fun x hx => h x (by simp [hx]))]
    omega

lemma litsSpec_length (cnf : CNFFormula) (h3 : ∀ cl ∈ cnf, cl.length = 3) :
    (litsSpec cnf).length = 3 * cnf.length := by
  unfold litsSpec
  rw [List.length_flatten]
  rw [map_length_sum cnf.enum _ (fun p hp => by
    simp only [List.length_map, List.enum_length]
    exact h3 p.2 (snd_mem_enum hp))]
  rw [List.enum_length]

lemma litsSpec_map_id (cnf : CNFFormula) :
    (litsSpec cnf).map GLiteral.id
      = (cnf.enum.map (fun p =>
          (List.range p.2.length).map (fun i => (p.1, i)))).flatten := by
  unfold litsSpec
  rw [List.map_flatten, List.map_map]
  congr 1
  apply List.map_congr_left
  intro p hp
  simp only [Function.comp_apply, List.map_map]
  rw [← List.enum_map_fst p.2, List.map_map]
  rfl

lemma litsSpec_ids_nodup (cnf : CNFFormula) :
    ((litsSpec cnf).map GLiteral.id).Nodup := by
  rw [litsSpec_map_id, List.nodup_flatten]
  constructor
  · intro l hl
    obtain ⟨p, -, rfl⟩ := List.mem_map.1 hl
    exact (List.nodup_range _).map (fun a b hab => congrArg Prod.snd hab)
  · rw [List.pairwise_map]
    have hfst : List.Pairwise (fun p p' : Nat × Clause => p.1 < p'.1) cnf.enum := by
      have h0 := List.pairwise_lt_range cnf.length
      rw [← List.enum_map_fst cnf] at h0
      exact List.pairwise_map.1 h0
    refine hfst.imp ?_
    intro p p' hlt
    rw [List.disjoint_left]
    intro a ha ha'
    obtain ⟨i, -, rfl⟩ := List.mem_map.1 ha
    obtain ⟨j, -, hj⟩ := List.mem_map.1 ha'
    have hfst2 := congrArg Prod.fst hj
    simp only at hfst2
    omega

lemma pairsUpper_mem {α : Type} (l : List α) (pr : α × α)
    (h : pr ∈ pairsUpper l) : pr.1 ∈ l ∧ pr.2 ∈ l := by
  induction l with
  | nil => simp [pairsUpper] at h
  | cons x xs ih =>
    unfold pairsUpper at h
    rcases List.mem_append.1 h with h1 | h1
    · obtain ⟨y, hy, heq⟩ := List.mem_map.1 h1
      rw [← heq]
      exact ⟨by simp, by simp [hy]⟩
    · have hm := ih h1
      exact ⟨by simp [hm.1], by simp [hm.2]⟩

lemma pairsUpper_complete {α : Type} (l : List α) :
    l.Nodup → ∀ a b : α, a ∈ l → b ∈ l → a ≠ b →
      (a, b) ∈ pairsUpper l ∨ (b, a) ∈ pairsUpper l := by
  induction l with
  | nil => intro _ a b ha; simp at ha
  | cons x xs ih =>
    intro hnd a b ha hb hne
    rw [List.nodup_cons] at hnd
    rcases List.mem_cons.1 ha with rfl | ha'
    · rcases List.mem_cons.1 hb with rfl | hb'
      · exact absurd rfl hne
      · exact Or.inl (List.mem_append.2 (Or.inl (List.mem_map.2 ⟨b, hb', rfl⟩)))
    · rcases List.mem_cons.1 hb with rfl | hb'
      · exact Or.inr (List.mem_append.2 (Or.inl (List.mem_map.2 ⟨a, ha', rfl⟩)))
      · rcases ih hnd.2 a b ha' hb' hne with h1 | h1
        · exact Or.inl (List.mem_append.2 (Or.inr h1))
        · exact Or.inr (List.mem_append.2 (Or.inr h1))

lemma mem_buildEdges (lits : List GLiteral) (e : GEdge) :
    e ∈ buildEdges lits ↔ ∃ pr ∈ pairsUpper lits,
      (pr.1.clauseIndex != pr.2.clauseIndex && !contradictory pr.1 pr.2) = true ∧
      e = ⟨pr.1.id, pr.2.id⟩ := by
  unfold buildEdges
  rw [List.mem_filterMap]
  constructor
  · rintro ⟨pr, hpr, hif⟩
    by_cases hc : (pr.1.clauseIndex != pr.2.clauseIndex
        && !contradictory pr.1 pr.2) = true
    · rw [if_pos hc] at hif
      exact ⟨pr, hpr, hc, (Option.some_inj.1 hif).symm⟩
    · rw [if_neg hc] at hif
      simp at hif
  · rintro ⟨pr, hpr, hc, rfl⟩
    exact ⟨pr, hpr, by rw [if_pos hc]⟩

/-! ## Claim C2 -/

/-- C2 counterexample: the empty formula is (vacuously) a 3-CNF Formula with
k = 0 clauses, yet lowering its rendered text produces one vertex, not 3k =
0: splitting the empty string yields one (empty) clause substring. -/
theorem lower_empty_counterexample :
    (∀ cl ∈ ([] : CNFFormula), cl.length = 3) ∧
    (parseFormulaToGraph (formulaToString ([] : CNFFormula))).1.length = 1 ∧
    (parseFormulaToGraph (formulaToString ([] : CNFFormula))).1.length
      ≠ 3 * ([] : CNFFormula).length := by
  decide

/-- C2 amended: for every *non-empty* 3-CNF Formula with k clauses (every
clause of arity 3, variables well-formed), lowering the rendered formula
yields exactly 3k vertices with pairwise-distinct (clause, position) ids; no
edge joins two vertices of the same clause index or two complementary
literals; and every cross-clause non-complementary pair of vertices is
connected by an edge. -/
theorem lower_graph_spec (cnf : CNFFormula) (h : GoodCNF cnf)
    (h3 : ∀ cl ∈ cnf, cl.length = 3) (hne : cnf ≠ []) :
    (parseFormulaToGraph (formulaToString cnf)).1.length = 3 * cnf.length ∧
    ((parseFormulaToGraph (formulaToString cnf)).1.map GLiteral.id).Nodup ∧
    (∀ e ∈ (parseFormulaToGraph (formulaToString cnf)).2,
      ∃ l1 ∈ (parseFormulaToGraph (formulaToString cnf)).1,
      ∃ l2 ∈ (parseFormulaToGraph (formulaToString cnf)).1,
        e.efrom = l1.id ∧ e.eto = l2.id ∧ l1.clauseIndex ≠ l2.clauseIndex ∧
        ¬(l1.«variable» = l2.«variable» ∧ l1.negated ≠ l2.negated)) ∧
    (∀ l1 ∈ (parseFormulaToGraph (formulaToString cnf)).1,
     ∀ l2 ∈ (parseFormulaToGraph (formulaToString cnf)).1,
      l1.clauseIndex ≠ l2.clauseIndex →
      ¬(l1.«variable» = l2.«variable» ∧ l1.negated ≠ l2.negated) →
      ∃ e ∈ (parseFormulaToGraph (formulaToString cnf)).2,
        (e.efrom = l1.id ∧ e.eto = l2.id) ∨ (e.efrom = l2.id ∧ e.eto = l1.id)) := by
  have hL : (parseFormulaToGraph (formulaToString cnf)).1 = litsSpec cnf :=
    buildLits_render cnf h hne
  have hE : (parseFormulaToGraph (formulaToString cnf)).2
      = buildEdges (litsSpec cnf) := by
    show buildEdges (buildLits (graphClauses (formulaToString cnf))) = _
    rw [buildLits_render cnf h hne]
  rw [hL, hE]
  refine ⟨litsSpec_length cnf h3, litsSpec_ids_nodup cnf, ?_, ?_⟩
  · intro e he
    rw [mem_buildEdges] at he
    obtain ⟨pr, hpr, hc, rfl⟩ := he
    obtain ⟨h1m, h2m⟩ := pairsUpper_mem _ pr hpr
    simp only [Bool.and_eq_true, bne_iff_ne, Bool.not_eq_true'] at hc
    refine ⟨pr.1, h1m, pr.2, h2m, rfl, rfl, hc.1, ?_⟩
    rintro ⟨hv, hn⟩
    have hcontra : contradictory pr.1 pr.2 = true := by
      unfold contradictory
      simp [hv, hn]
    rw [hcontra] at hc
    exact absurd hc.2 (by simp)
  · intro l1 h1m l2 h2m hci hcompl
    have hnd : (litsSpec cnf).Nodup := List.Nodup.of_map _ (litsSpec_ids_nodup cnf)
    have hne12 : l1 ≠ l2 := fun he => hci (by rw [he])
    have hcond : ∀ a b : GLiteral, a.clauseIndex ≠ b.clauseIndex →
        ¬(a.«variable» = b.«variable» ∧ a.negated ≠ b.negated) →
        (a.clauseIndex != b.clauseIndex && !contradictory a b) = true := by
      intro a b hab hcc
      simp only [Bool.and_eq_true, bne_iff_ne, Bool.not_eq_true']
      refine ⟨hab, ?_⟩
      unfold contradictory
      by_cases hv : a.«variable» = b.«variable»
      · have hn : a.negated = b.negated := by
          by_contra hn
          exact hcc ⟨hv, hn⟩
        simp [hv, hn]
      · simp [hv]
    rcases pairsUpper_complete (litsSpec cnf) hnd l1 l2 h1m h2m hne12 with hp | hp
    · exact ⟨⟨l1.id, l2.id⟩,
        (mem_buildEdges _ _).2 ⟨(l1, l2), hp, hcond l1 l2 hci hcompl, rfl⟩,
        Or.inl ⟨rfl, rfl⟩⟩
    · have hci' : l2.clauseIndex ≠ l1.clauseIndex := fun he => hci he.symm
      have hcompl' : ¬(l2.«variable» = l1.«variable» ∧ l2.negated ≠ l1.negated) :=
        fun hh => hcompl ⟨hh.1.symm, fun he => hh.2 he.symm⟩
      exact ⟨⟨l2.id, l1.id⟩,
        (mem_buildEdges _ _).2 ⟨(l2, l1), hp, hcond l2 l1 hci' hcompl', rfl⟩,
        Or.inr ⟨rfl, rfl⟩⟩

theorem lower_graph_spec_witness :
    GoodCNF [[⟨['A'], false⟩, ⟨['B'], false⟩, ⟨['C'], false⟩],
      [⟨['A'], true⟩, ⟨['D'], false⟩, ⟨['E'], false⟩]] ∧
    (parseFormulaToGraph (formulaToString
      [[⟨['A'], false⟩, ⟨['B'], false⟩, ⟨['C'], false⟩],
        [⟨['A'], true⟩, ⟨['D'], false⟩, ⟨['E'], false⟩]])).1.length = 3 * 2 :=
  ⟨by decide,
    (lower_graph_spec
      [[⟨['A'], false⟩, ⟨['B'], false⟩, ⟨['C'], false⟩],
        [⟨['A'], true⟩, ⟨['D'], false⟩, ⟨['E'], false⟩]]
      (by decide) (by decide) (by decide)).1⟩

/-! ## Decimal rendering: reference model and injectivity -/

/-- Reference decimal rendering: most-significant digit first, as
`Nat.repr` produces. -/
def decRepr (n : Nat) : List Char :=
  let d := Nat.digitChar (n % 10)
  if h : n / 10 = 0 then [d] else decRepr (n / 10) ++ [d]
termination_by n
decreasing_by
  exact Nat.div_lt_self (Nat.pos_of_ne_zero (fun h0 => h (by simp [h0]))) (by norm_num)

lemma toDigitsCore_eq_decRepr :
    ∀ (fuel n : Nat) (ds : List Char), n < fuel →
      Nat.toDigitsCore 10 fuel n ds = decRepr n ++ ds := by
  intro fuel
  induction fuel with
  | zero => intro n ds h; omega
  | succ f ih =>
    intro n ds h
    rw [Nat.toDigitsCore]
    by_cases h0 : n / 10 = 0
    · rw [if_pos h0, decRepr, dif_pos h0]
      rfl
    · rw [if_neg h0]
      have hpos : 0 < n := Nat.pos_of_ne_zero (fun hz => h0 (by simp [hz]))
      have hlt : n / 10 < f := by
        have h1 : n / 10 < n := Nat.div_lt_self hpos (by norm_num)
        omega
      rw [decRepr, dif_neg h0, ih (n / 10) _ hlt]
      simp

lemma repr_data_eq (n : Nat) : (Nat.repr n).data = decRepr n := by
  show (Nat.toDigits 10 n).asString.data = decRepr n
  unfold Nat.toDigits
  rw [toDigitsCore_eq_decRepr (n + 1) n [] (by omega)]
  rw [List.append_nil]
  rfl

lemma decRepr_ne_nil (n : Nat) : decRepr n ≠ [] := by
  rw [decRepr]
  by_cases h0 : n / 10 = 0
  · rw [dif_pos h0]; simp
  · rw [dif_neg h0]; simp

lemma digitChar_injOn :
    ∀ d, d < 10 → ∀ e, e < 10 → Nat.digitChar d = Nat.digitChar e → d = e := by
  decide

lemma decRepr_inj : ∀ n m : Nat, decRepr n = decRepr m → n = m := by
  intro n
  induction n using Nat.strong_induction_on with
  | _ n ih =>
    intro m heq
    by_cases h1 : n / 10 = 0 <;> by_cases h2 : m / 10 = 0
    · have e1 : decRepr n = [Nat.digitChar (n % 10)] := by
        rw [decRepr, dif_pos h1]
      have e2 : decRepr m = [Nat.digitChar (m % 10)] := by
        rw [decRepr, dif_pos h2]
      rw [e1, e2] at heq
      have hd := digitChar_injOn (n % 10) (Nat.mod_lt n (by norm_num))
        (m % 10) (Nat.mod_lt m (by norm_num)) (by simpa using heq)
      omega
    · have e1 : decRepr n = [Nat.digitChar (n % 10)] := by
        rw [decRepr, dif_pos h1]
      have e2 : decRepr m = decRepr (m / 10) ++ [Nat.digitChar (m % 10)] := by
        rw [decRepr, dif_neg h2]
      rw [e1, e2] at heq
      have hlen := congrArg List.length heq
      simp only [List.length_singleton, List.length_append] at hlen
      exact absurd (List.length_eq_zero.1 (by omega)) (decRepr_ne_nil (m / 10))
    · have e1 : decRepr n = decRepr (n / 10) ++ [Nat.digitChar (n % 10)] := by
        rw [decRepr, dif_neg h1]
      have e2 : decRepr m = [Nat.digitChar (m % 10)] := by
        rw [decRepr, dif_pos h2]
      rw [e1, e2] at heq
      have hlen := congrArg List.length heq
      simp only [List.length_singleton, List.length_append] at hlen
      exact absurd (List.length_eq_zero.1 (by omega)) (decRepr_ne_nil (n / 10))
    · have e1 : decRepr n = decRepr (n / 10) ++ [Nat.digitChar (n % 10)] := by
        rw [decRepr, dif_neg h1]
      have e2 : decRepr m = decRepr (m / 10) ++ [Nat.digitChar (m % 10)] := by
        rw [decRepr, dif_neg h2]
      rw [e1, e2] at heq
      obtain ⟨hpre, hlast⟩ := List.append_inj' heq rfl
      have hpos : 0 < n := Nat.pos_of_ne_zero (fun hz => h1 (by simp [hz]))
      have hdiv := ih (n / 10) (Nat.div_lt_self hpos (by norm_num)) (m / 10) hpre
      have hd := digitChar_injOn (n % 10) (Nat.mod_lt n (by norm_num))
        (m % 10) (Nat.mod_lt m (by norm_num)) (by simpa using hlast)
      omega

lemma helperName_ne (p p' : Char) (k k' : Nat) (h : k ≠ k') :
    helperName p k ≠ helperName p' k' := by
  intro he
  unfold helperName natChars at he
  have htail := congrArg List.tail he
  simp only [List.tail_cons] at htail
  rw [repr_data_eq, repr_data_eq] at htail
  exact h (decRepr_inj k k' htail)

/-! ## Fresh-name bookkeeping -/

/-- The (site, counter) pairs generated between counter values `c0` and `c1`:
prefixes drawn from the four generation sites, counters strictly increasing
within `[c0, c1)`. -/
def PairsRange (c0 c1 : Nat) (ps : List (Char × Nat)) : Prop :=
  c0 ≤ c1 ∧
  (∀ pk ∈ ps, pk.1 ∈ (['x', 'y', 'z', 'p'] : List Char) ∧
    c0 ≤ pk.2 ∧ pk.2 < c1) ∧
  List.Pairwise (fun a b : Char × Nat => a.2 < b.2) ps

lemma pairsRange_append {c0 c1 c2 : Nat} {ps qs : List (Char × Nat)}
    (h1 : PairsRange c0 c1 ps) (h2 : PairsRange c1 c2 qs) :
    PairsRange c0 c2 (ps ++ qs) := by
  obtain ⟨h01, hm1, hp1⟩ := h1
  obtain ⟨h12, hm2, hp2⟩ := h2
  refine ⟨le_trans h01 h12, ?_, ?_⟩
  · intro pk hpk
    rcases List.mem_append.1 hpk with hh | hh
    · have := hm1 pk hh
      exact ⟨this.1, this.2.1, lt_of_lt_of_le this.2.2 h12⟩
    · have := hm2 pk hh
      exact ⟨this.1, le_trans h01 this.2.1, this.2.2⟩
  · rw [List.pairwise_append]
    exact ⟨hp1, hp2, fun a ha b hb =>
      lt_of_lt_of_le (hm1 a ha).2.2 (hm2 b hb).2.1⟩

lemma pairsRange_nil (c : Nat) : PairsRange c c [] :=
  ⟨le_refl c, by simp, List.Pairwise.nil⟩

lemma splitLongClause_fresh (cl : Clause) (cnt : Nat) :
    PairsRange cnt (splitLongClause cl cnt).2.2.1 (splitLongClause cl cnt).2.2.2 := by
  induction cl, cnt using splitLongClause.induct with
  | case1 a b c d rest cnt hv ih =>
    rw [show hv = helperName 'x' cnt from rfl] at ih
    rw [splitLongClause]
    dsimp only
    obtain ⟨h01, hm, hp⟩ := ih
    refine ⟨by omega, ?_, ?_⟩
    · intro pk hpk
      rcases List.mem_cons.1 hpk with rfl | hh
      · exact ⟨by simp, le_refl _, by omega⟩
      · have := hm pk hh
        exact ⟨this.1, by omega, this.2.2⟩
    · exact List.Pairwise.cons (fun pk hpk => by have := (hm pk hpk).2.1; omega) hp
  | case2 rem cnt hshape hpos =>
    rw [splitLongClause]
    · simp only [hpos, if_pos]
      exact pairsRange_nil cnt
    · exact hshape
  | case3 rem cnt hshape hpos =>
    rw [splitLongClause]
    · simp only [hpos, if_neg, not_false_iff]
      exact pairsRange_nil cnt
    · exact hshape

lemma splitPhase1_fresh :
    ∀ (cnf : CNFFormula) (cnt : Nat),
      PairsRange cnt (splitPhase1 cnf cnt).2.2.1 (splitPhase1 cnf cnt).2.2.2 := by
  intro cnf
  induction cnf with
  | nil => intro cnt; rw [splitPhase1]; exact pairsRange_nil cnt
  | cons clause rest ih =>
    intro cnt
    rw [splitPhase1]
    by_cases hlen : clause.length ≤ 3
    · simp only [hlen, if_pos]
      exact ih cnt
    · simp only [hlen, if_neg, not_false_iff]
      exact pairsRange_append (splitLongClause_fresh clause cnt) (ih _)

lemma padClause_fresh (cl : Clause) (cnt : Nat) :
    PairsRange cnt (padClause cl cnt).2.2.1 (padClause cl cnt).2.2.2 := by
  unfold padClause
  by_cases h1 : cl.length = 1
  · rw [if_pos h1]
    dsimp only
    refine ⟨by omega, ?_, by simp⟩
    intro pk hpk
    rcases List.mem_singleton.1 hpk with rfl
    exact ⟨by simp, le_refl _, by omega⟩
  · rw [if_neg h1]
    by_cases h2 : cl.length = 2
    · rw [if_pos h2]
      dsimp only
      refine ⟨by omega, ?_, by simp⟩
      intro pk hpk
      rcases List.mem_singleton.1 hpk with rfl
      exact ⟨by simp, le_refl _, by omega⟩
    · rw [if_neg h2]
      exact pairsRange_nil cnt

lemma padPhase_fresh :
    ∀ (cnf : CNFFormula) (cnt : Nat),
      PairsRange cnt (padPhase cnf cnt).2.2.1 (padPhase cnf cnt).2.2.2 := by
  intro cnf
  induction cnf with
  | nil => intro cnt; rw [padPhase]; exact pairsRange_nil cnt
  | cons clause rest ih =>
    intro cnt
    rw [padPhase]
    exact pairsRange_append (padClause_fresh clause cnt) (ih _)

lemma padShortLoop_fresh (cl : Clause) (cnt : Nat) :
    PairsRange cnt (padShortLoop cl cnt).2.2.1 (padShortLoop cl cnt).2.2.2 := by
  induction cl, cnt using padShortLoop.induct with
  | case1 padded cnt h padVar ih =>
    rw [show padVar = helperName 'p' cnt from rfl] at ih
    rw [padShortLoop]
    simp only [h, if_pos]
    obtain ⟨h01, hm, hp⟩ := ih
    refine ⟨by omega, ?_, ?_⟩
    · intro pk hpk
      rcases List.mem_cons.1 hpk with rfl | hh
      · exact ⟨by simp, le_refl _, by omega⟩
      · have := hm pk hh
        exact ⟨this.1, by omega, this.2.2⟩
    · exact List.Pairwise.cons (fun pk hpk => by have := (hm pk hpk).2.1; omega) hp
  | case2 padded cnt h =>
    rw [padShortLoop]
    simp only [h, if_neg, not_false_iff]
    exact pairsRange_nil cnt

lemma padOnlyPhase_fresh :
    ∀ (cnf : CNFFormula) (cnt : Nat),
      PairsRange cnt (padOnlyPhase cnf cnt).2.2.1 (padOnlyPhase cnf cnt).2.2.2 := by
  intro cnf
  induction cnf with
  | nil => intro cnt; rw [padOnlyPhase]; exact pairsRange_nil cnt
  | cons clause rest ih =>
    intro cnt
    rw [padOnlyPhase]
    by_cases h3 : clause.length = 3
    · simp only [h3, if_pos]
      exact ih cnt
    · by_cases hlt : clause.length < 3
      · simp only [h3, hlt, if_neg, if_pos, not_false_iff]
        exact pairsRange_append (padShortLoop_fresh clause cnt) (ih _)
      · simp only [h3, hlt, if_neg, not_false_iff]
        exact ih cnt

lemma freshPairs_range (cnf : CNFFormula) (m : Method) :
    ∃ c1, PairsRange 1 c1 (freshPairs cnf m) := by
  cases m with
  | tseitin =>
    exact ⟨_, pairsRange_append (splitPhase1_fresh cnf 1) (padPhase_fresh _ _)⟩
  | split =>
    exact ⟨_, pairsRange_append (splitPhase1_fresh cnf 1) (padPhase_fresh _ _)⟩
  | padding => exact ⟨_, padOnlyPhase_fresh cnf 1⟩

/-! ## Claim C6 -/

/-- C6 counterexample: on an input formula that already uses the variable
name `x1`, the splitting run generates the helper name `x1` again — fresh
names are not distinct from the variable names already present. -/
theorem fresh_name_collision_counterexample :
    ("x1".data ∈ varsOf [[⟨"x1".data, false⟩, ⟨['a'], false⟩, ⟨['b'], false⟩,
      ⟨['c'], false⟩]]) ∧
    ("x1".data ∈ freshNames [[⟨"x1".data, false⟩, ⟨['a'], false⟩, ⟨['b'], false⟩,
      ⟨['c'], false⟩]] Method.split) := by
  constructor
  · decide
  · unfold freshNames
    refine List.mem_map.2 ⟨('x', 1), ?_, by decide⟩
    unfold freshPairs
    apply List.mem_append.2
    left
    rw [splitPhase1]
    simp only [show ¬ (([⟨"x1".data, false⟩, ⟨['a'], false⟩, ⟨['b'], false⟩,
      ⟨['c'], false⟩] : Clause).length ≤ 3) from by decide, if_neg, not_false_iff]
    apply List.mem_append.2
    left
    rw [splitLongClause]
    exact List.mem_cons_self _ _

/-- C6 amended: within one run of `transformTo3CNF` (any strategy) the fresh
helper/padding names are pairwise distinct (the counter strictly increases
and decimal rendering is injective), and every fresh name has the shape
`x`/`y`/`z`/`p` followed by a positive decimal counter; hence fresh names are
distinct from every input variable name that is not itself of that reserved
shape — but not from reserved-shape input names such as `x1`. -/
theorem fresh_names_distinct (cnf : CNFFormula) (m : Method) :
    (freshNames cnf m).Pairwise (· ≠ ·) ∧
    (∀ name ∈ freshNames cnf m, ∃ p k, p ∈ (['x', 'y', 'z', 'p'] : List Char) ∧
      1 ≤ k ∧ name = helperName p k) ∧
    (∀ v ∈ varsOf cnf,
      (∀ p k, p ∈ (['x', 'y', 'z', 'p'] : List Char) → 1 ≤ k →
        v ≠ helperName p k) →
      v ∉ freshNames cnf m) := by
  obtain ⟨c1, hr⟩ := freshPairs_range cnf m
  refine ⟨?_, ?_, ?_⟩
  · unfold freshNames
    rw [List.pairwise_map]
    exact hr.2.2.imp (fun hab => helperName_ne _ _ _ _ (Nat.ne_of_lt hab))
  · intro name hname
    obtain ⟨pk, hpk, rfl⟩ := List.mem_map.1 hname
    have hm := hr.2.1 pk hpk
    exact ⟨pk.1, pk.2, hm.1, hm.2.1, rfl⟩
  · intro v hv hnot hmem
    obtain ⟨pk, hpk, heq⟩ := List.mem_map.1 hmem
    have hm := hr.2.1 pk hpk
    exact hnot pk.1 pk.2 hm.1 hm.2.1 heq.symm
